import Mathlib

/-!
Verification of the request admission/scheduling core and the bounded
conversation memory of the Mikaz repository.

The memory store is a shallow embedding of `src/memory_store.py`
(class `MemoryStore`), the queue of `src/request_queue.py`
(class `RequestQueue`).  Python dicts are modelled as insertion-ordered
association lists, Python floats (timestamps) as rationals, the external
tokenizer as an arbitrary function `String → Nat`, and the worker loop as
a labelled transition system whose steps are the suspension points of the
async code.
-/

namespace Mikaz

/-! ### Python dict model

An insertion-ordered association list with `Nat` keys: `dget` is
`dict.get(k, dflt)`, `dset` is `dict[k] = v` (update in place if the key
is present, else append at the end, as Python dicts preserve insertion
order), `dpop` is `dict.pop(k, None)`. -/

def dget {α : Type} : List (Nat × α) → Nat → α → α
  | [], _, dflt => dflt
  | p :: rest, k, dflt => if p.1 == k then p.2 else dget rest k dflt

def dset {α : Type} : List (Nat × α) → Nat → α → List (Nat × α)
  | [], k, v => [(k, v)]
  | p :: rest, k, v => if p.1 == k then (k, v) :: rest else p :: dset rest k v

def dpop {α : Type} (m : List (Nat × α)) (k : Nat) : List (Nat × α) :=
  m.filter (fun p => p.1 != k)

/-! ### Memory store (`src/memory_store.py`)

`Msg` is the `Msg` TypedDict; the tokenizer (`tiktoken` in the source) is
an arbitrary deterministic function `tok : String → Nat`, applied to a
message's `content` exactly as `len(TOKENIZER.encode(...))` is.  The
cached per-user token count `_token_cnt` holds Python ints, modelled as
`Int` (Python subtraction does not truncate at zero). -/

structure Msg where
  role : String
  content : String
deriving DecidableEq

/-- `MEMORY_MAX_PER_USER` from `memory_store.py`. -/
def MEMORY_MAX_PER_USER : Nat := 50

/-- `MEMORY_MAX_TOKENS` from `memory_store.py`. -/
def MEMORY_MAX_TOKENS : Int := 2000

/-- Total tokenizer count of a list of entries,
`sum(len(TOKENIZER.encode(m["content"])) for m in d)`. -/
def sumTok (tok : String → Nat) : List Msg → Nat
  | [] => 0
  | m :: rest => tok m.content + sumTok tok rest

/-- First loop of `MemoryStore._prune`:
`while len(d) > MEMORY_MAX_PER_USER: removed = d.popleft(); token_cnt -= ...`,
parametrised by the bound `maxM`. -/
def pruneCount (maxM : Nat) (tok : String → Nat) : List Msg → Int → List Msg × Int
  | [], t => ([], t)
  | m :: rest, t =>
    if maxM < (m :: rest).length then
      pruneCount maxM tok rest (t - (tok m.content : Int))
    else (m :: rest, t)

/-- Second loop of `MemoryStore._prune`:
`while token_cnt > MEMORY_MAX_TOKENS and d: removed = d.popleft(); ...`,
parametrised by the bound `maxT`. -/
def pruneTokens (maxT : Int) (tok : String → Nat) : List Msg → Int → List Msg × Int
  | [], t => ([], t)
  | m :: rest, t =>
    if maxT < t then
      pruneTokens maxT tok rest (t - (tok m.content : Int))
    else (m :: rest, t)

/-- The in-memory state of `MemoryStore`: `_cache` and `_token_cnt`. -/
structure MemoryStore where
  cache : List (Nat × List Msg)
  tokenCnt : List (Nat × Int)
deriving DecidableEq

/-- The state of a freshly constructed store whose backing file is absent. -/
def emptyStore : MemoryStore := { cache := [], tokenCnt := [] }

/-- `MemoryStore.get_user_messages`: `list(self._cache.get(user_id, []))`
(the returned list is a copy, which the value semantics of the model gives
for free). -/
def get_user_messages (s : MemoryStore) (user_id : Nat) : List Msg :=
  dget s.cache user_id []

/-- `MemoryStore.add_message` followed by `_prune`, with the two limits as
parameters: append the entry, add its token count to the cached counter,
then run both pruning loops and write back the pruned deque and counter.
(The trailing `_save()` call only persists the state and is modelled by
`saveStore` separately.) -/
def add_messageP (tok : String → Nat) (maxM : Nat) (maxT : Int)
    (s : MemoryStore) (user_id : Nat) (msg : Msg) : MemoryStore :=
  let cache1 := dset s.cache user_id (dget s.cache user_id [] ++ [msg])
  let tc1 := dset s.tokenCnt user_id
      (dget s.tokenCnt user_id 0 + (tok msg.content : Int))
  let r1 := pruneCount maxM tok (dget cache1 user_id []) (dget tc1 user_id 0)
  let r2 := pruneTokens maxT tok r1.1 r1.2
  { cache := dset cache1 user_id r2.1, tokenCnt := dset tc1 user_id r2.2 }

/-- `MemoryStore.add_message` with the limits of the source module. -/
def add_message (tok : String → Nat) (s : MemoryStore) (user_id : Nat)
    (msg : Msg) : MemoryStore :=
  add_messageP tok MEMORY_MAX_PER_USER MEMORY_MAX_TOKENS s user_id msg

/-- `MemoryStore.clear_user`: pop the user from both maps (and persist). -/
def clear_user (s : MemoryStore) (user_id : Nat) : MemoryStore :=
  { cache := dpop s.cache user_id, tokenCnt := dpop s.tokenCnt user_id }

/-- States of the store reachable from a fresh empty store by `add_message`
and `clear_user` operations. -/
inductive MemReach (tok : String → Nat) : MemoryStore → Prop where
  | init : MemReach tok emptyStore
  | add (s : MemoryStore) (user_id : Nat) (msg : Msg) :
      MemReach tok s → MemReach tok (add_message tok s user_id msg)
  | clear (s : MemoryStore) (user_id : Nat) :
      MemReach tok s → MemReach tok (clear_user s user_id)

/-! ### The eviction result, from the words of the spec

For the refinement claim about eviction, `validB`/`lvs` are written from
the words of the spec, not from the source: a stored sequence is valid
when its length is at most `MaxMessages` and its total token count is at
most `MaxTokens`, and `lvs` is the longest valid suffix of a list (it
scans the suffixes from the longest down and returns the first valid
one). -/

def validB (maxM : Nat) (maxT : Int) (tok : String → Nat) (l : List Msg) : Bool :=
  decide (l.length ≤ maxM) && decide ((sumTok tok l : Int) ≤ maxT)

def lvs (maxM : Nat) (maxT : Int) (tok : String → Nat) : List Msg → List Msg
  | [] => []
  | m :: rest =>
    if validB maxM maxT tok (m :: rest) then m :: rest
    else lvs maxM maxT tok rest

/-! ### Persistence (`MemoryStore._save` / `MemoryStore._load`)

The JSON object written by `_save` is modelled as an ordered list of
(key string, entry list) pairs, a key string being its list of digit
characters.  `encodeKey` is Python `str(k)` for a non-negative int,
`parseKey` is `int(s)` (success on a nonempty all-digit string, an
exception otherwise). -/

def encodeKey (k : Nat) : List Nat :=
  if k = 0 then [0] else (Nat.digits 10 k).reverse

def parseKey (s : List Nat) : Option Nat :=
  if s = [] then none
  else if s.all (fun d => decide (d < 10)) then some (Nat.ofDigits 10 s.reverse)
  else none

/-- What the store path can hold when a `MemoryStore` is constructed:
no file at all, a file `json.loads` rejects (or whose values lack the
expected shape), or a parsed mapping. -/
inductive FileContent where
  | missing
  | corrupt
  | parsed (data : List (List Nat × List Msg))

/-- `MemoryStore._save`: serialize the whole per-user map, in insertion
order, each key as its decimal string (`{str(k): list(v) for k, v in
self._cache.items()}`); the temp-file write and atomic replace are
external I/O. -/
def saveStore (s : MemoryStore) : List (List Nat × List Msg) :=
  s.cache.map (fun p => (encodeKey p.1, p.2))

/-- `MemoryStore._load`, run by the constructor on the fresh empty state:
a missing file returns early leaving the state empty; any exception
(unparsable file, or a key on which `int(k)` raises) resets both maps to
empty; otherwise every entry is stored under its parsed key with its
token total recomputed. -/
def loadStore (tok : String → Nat) (fc : FileContent) : MemoryStore :=
  match fc with
  | .missing => emptyStore
  | .corrupt => emptyStore
  | .parsed data =>
    if data.all (fun p => (parseKey p.1).isSome) then
      { cache :=
          data.foldl (fun acc p => dset acc ((parseKey p.1).getD 0) p.2) [],
        tokenCnt :=
          data.foldl
            (fun acc p => dset acc ((parseKey p.1).getD 0)
              (sumTok tok p.2 : Int)) [] }
    else emptyStore

/-! ### Request queue (`src/request_queue.py`)

`QueuedRequest` keeps the fields the queue logic reads (the originating
Discord message is carried opaquely through `final_user_text`); Python
float timestamps from `time.time()` are rationals.  The queue state is
everything `RequestQueue` mutates between suspension points of the event
loop; the worker loop is the transition relation `QStep`. -/

structure QueuedRequest where
  user_id : Nat
  is_owner : Bool
  timestamp : ℚ
  final_user_text : String
deriving DecidableEq

/-- `QueuedRequest.__lt__`: when the owner flags differ the owner ranks
first, otherwise the earlier timestamp ranks first. -/
def qltb (a b : QueuedRequest) : Bool :=
  if a.is_owner != b.is_owner then a.is_owner
  else decide (a.timestamp < b.timestamp)

/-- The outcome of `RequestQueue.add_request`, abstracting the returned
`(success, status-string)` pair by the branch that produced it; the
cooldown rejection carries the remaining seconds that are interpolated
into its message. -/
inductive Decision where
  | accepted
  | rejectInFlight
  | rejectCooldown (remaining : ℚ)
deriving DecidableEq

/-- The mutable state of a `RequestQueue`: the pending requests in arrival
order (`_queue` holds them as a heap; dequeue order is given by `popMin`),
`_processing_users`, `_user_last_request`, the request currently held by
the worker between `get` and the end of the matching `finally`, and how
many times the processing callback has been invoked. -/
structure QueueState where
  queue : List QueuedRequest
  processing : List Nat
  user_last_request : List (Nat × ℚ)
  current : Option QueuedRequest
  invoked : Nat
deriving DecidableEq

def initQState : QueueState :=
  { queue := [], processing := [], user_last_request := [],
    current := none, invoked := 0 }

/-- Python `set.add` on `_processing_users`. -/
def sadd (s : List Nat) (x : Nat) : List Nat :=
  if s.contains x then s else x :: s

/-- Python `set.discard` on `_processing_users`. -/
def sdiscard (s : List Nat) (x : Nat) : List Nat :=
  s.filter (fun y => y != x)

/-- `RequestQueue.add_request`: reject when the user is in
`_processing_users`; otherwise, unless the user is the owner (the result
of the external `bot.is_owner` check, passed in as a flag), reject when
less than 5 seconds have passed since `_user_last_request`, answering the
remaining seconds; otherwise build the `QueuedRequest`, `put` it, and
record the admission time. -/
def addRequest (st : QueueState) (now : ℚ) (uid : Nat) (owner : Bool)
    (txt : String) : Decision × QueueState :=
  if st.processing.contains uid then (.rejectInFlight, st)
  else if !owner && decide (now - dget st.user_last_request uid 0 < 5) then
    (.rejectCooldown (5 - (now - dget st.user_last_request uid 0)), st)
  else
    (.accepted,
      { st with
        queue := st.queue ++ [⟨uid, owner, now, txt⟩],
        user_last_request := dset st.user_last_request uid now })

/-- One `get` of the `asyncio.PriorityQueue`: remove a least element under
`__lt__` (the leftmost least element; with all comparison keys distinct,
which is the only situation the claims speak about, the least element is
unique and any heap returns it). -/
def popMin : List QueuedRequest → Option (QueuedRequest × List QueuedRequest)
  | [] => none
  | a :: rest =>
    match popMin rest with
    | none => some (a, rest)
    | some (m, rest2) =>
      if qltb m a then some (m, a :: rest2) else some (a, rest)

/-- The worker picks up the least pending request, marks its user in
`_processing_users`, and invokes the processing callback on it. -/
def beginState (st : QueueState) (r : QueuedRequest)
    (rest : List QueuedRequest) : QueueState :=
  { st with
    queue := rest
    processing := sadd st.processing r.user_id
    current := some r
    invoked := st.invoked + 1 }

/-- End of one worker iteration for the held request `r`, on either exit
path of the callback: normal return (`ok = true`) or an exception caught
by the `except Exception` arm (`ok = false`); the `finally` arm discards
the user from `_processing_users` either way and the loop returns to
`get`. -/
def finishState (st : QueueState) (r : QueuedRequest) (_ok : Bool) :
    QueueState :=
  { st with processing := sdiscard st.processing r.user_id, current := none }

/-- `RequestQueue.stop`: cancel the worker task (its `finally` releases
any held request and the `CancelledError` breaks the loop), clear
`_processing_users`, and drain the queue with `get_nowait` without
invoking the callback on anything. -/
def stopState (st : QueueState) : QueueState :=
  { st with queue := [], processing := [], current := none }

/-- `self._queue.qsize()`. -/
def pendingCount (st : QueueState) : Nat := st.queue.length

/-- The interleavings of admission calls and worker iterations: an
`add_request` call (atomic on the single-threaded event loop), the worker
dequeuing the least request when it holds none, the worker finishing the
held request on either exit path of the callback, and `stop`. -/
inductive QStep : QueueState → QueueState → Prop where
  | add (st : QueueState) (now : ℚ) (uid : Nat) (owner : Bool) (txt : String) :
      QStep st (addRequest st now uid owner txt).2
  | begin (st : QueueState) (r : QueuedRequest) (rest : List QueuedRequest) :
      st.current = none → popMin st.queue = some (r, rest) →
      QStep st (beginState st r rest)
  | finish (st : QueueState) (r : QueuedRequest) (ok : Bool) :
      st.current = some r → QStep st (finishState st r ok)
  | stop (st : QueueState) : QStep st (stopState st)

/-- Queue states reachable from the freshly constructed `RequestQueue`. -/
inductive QReach : QueueState → Prop where
  | init : QReach initQState
  | step (st st2 : QueueState) : QReach st → QStep st st2 → QReach st2

/-- Fuel-indexed worker drain: the sequence of requests the worker
dequeues (one `popMin` per iteration) until the queue is exhausted, with
no interleaved enqueue.  The fuel only serves termination; `drainQ` below
supplies enough of it. -/
def drainAux : Nat → List QueuedRequest → List QueuedRequest
  | 0, _ => []
  | n + 1, l =>
    match popMin l with
    | none => []
    | some (m, r) => m :: drainAux n r

/-- The order in which the worker processes the current queue contents. -/
def drainQ (l : List QueuedRequest) : List QueuedRequest :=
  drainAux l.length l

/-! ### Concrete fixtures used by the witnesses -/

def tokLen : String → Nat := String.length

def tok4 : String → Nat := fun _ => 4

def roleUser : String := "user"

def tA : String := "alpha"

def tB : String := "beta"

def tC : String := "gamma"

def msgA : Msg := { role := roleUser, content := tA }

def msgB : Msg := { role := roleUser, content := tB }

def msgC : Msg := { role := roleUser, content := tC }

def reqA : QueuedRequest :=
  { user_id := 7, is_owner := true, timestamp := 0, final_user_text := tA }

def reqN1 : QueuedRequest :=
  { user_id := 1, is_owner := false, timestamp := 0, final_user_text := tA }

def reqPrivB : QueuedRequest :=
  { user_id := 2, is_owner := true, timestamp := 1, final_user_text := tB }

def reqN3 : QueuedRequest :=
  { user_id := 3, is_owner := false, timestamp := 2, final_user_text := tC }

def reqC5 : QueuedRequest :=
  { user_id := 5, is_owner := false, timestamp := 1, final_user_text := tA }

def reqC8 : QueuedRequest :=
  { user_id := 8, is_owner := false, timestamp := 2, final_user_text := tB }

def stC1w : QueueState := beginState (addRequest initQState 0 7 true tA).2 reqA []

def stC3 : QueueState :=
  { queue := [], processing := [], user_last_request := [(7, 0)],
    current := none, invoked := 0 }

def stC7 : QueueState :=
  { queue := [reqC8], processing := [5], user_last_request := [],
    current := some reqC5, invoked := 1 }

def stC8 : QueueState :=
  { queue := [reqN1, reqPrivB, reqN3], processing := [],
    user_last_request := [], current := none, invoked := 0 }

def stC10 : QueueState :=
  { queue := [], processing := [7], user_last_request := [],
    current := none, invoked := 0 }

/-! ### Theorems

First the dictionary, pruning, persistence and ordering lemmas, then one
theorem per claim (with its counterexample and witness where they
apply). -/

theorem dget_dset_self {α : Type} (m : List (Nat × α)) (k : Nat) (v d : α) :
    dget (dset m k v) k d = v := by
  induction m with
  | nil => simp [dget, dset]
  | cons p rest ih =>
    by_cases h : p.1 = k
    · simp [dget, dset, h]
    · simp [dget, dset, h, ih]

theorem dget_dset_ne {α : Type} (m : List (Nat × α)) (k k' : Nat) (v d : α)
    (h : k' ≠ k) : dget (dset m k v) k' d = dget m k' d := by
  induction m with
  | nil => simp [dget, dset, Ne.symm h]
  | cons p rest ih =>
    by_cases hp : p.1 = k
    · subst hp
      simp [dget, dset, Ne.symm h]
    · by_cases hp' : p.1 = k'
      · simp [dget, dset, hp, hp', h]
      · simp [dget, dset, hp, hp', ih]

theorem dget_dpop_self {α : Type} (m : List (Nat × α)) (k : Nat) (d : α) :
    dget (dpop m k) k d = d := by
  induction m with
  | nil => simp [dget, dpop]
  | cons p rest ih =>
    by_cases h : p.1 = k
    · simpa [dpop, h] using ih
    · simpa [dpop, dget, h] using ih

theorem dget_dpop_ne {α : Type} (m : List (Nat × α)) (k k' : Nat) (d : α)
    (h : k' ≠ k) : dget (dpop m k) k' d = dget m k' d := by
  induction m with
  | nil => simp [dget, dpop]
  | cons p rest ih =>
    by_cases hp : p.1 = k
    · simpa [dpop, dget, hp, Ne.symm h] using ih
    · by_cases hp' : p.1 = k'
      · simp [dpop, dget, hp, hp', h]
      · simpa [dpop, dget, hp, hp'] using ih

theorem sumTok_append (tok : String → Nat) (l₁ l₂ : List Msg) :
    sumTok tok (l₁ ++ l₂) = sumTok tok l₁ + sumTok tok l₂ := by
  induction l₁ with
  | nil => simp [sumTok]
  | cons m rest ih => simp [sumTok, ih]; ring

theorem pruneTokens_eq_lvs (maxM : Nat) (maxT : Int) (tok : String → Nat) :
    ∀ d : List Msg, d.length ≤ maxM →
      pruneTokens maxT tok d (sumTok tok d) =
        (lvs maxM maxT tok d, (sumTok tok (lvs maxM maxT tok d) : Int)) := by
  intro d
  induction d with
  | nil => intro _; simp [pruneTokens, lvs, sumTok]
  | cons m rest ih =>
    intro hlen
    by_cases ht : maxT < (sumTok tok (m :: rest) : Int)
    · have hsub : (sumTok tok (m :: rest) : Int) - (tok m.content : Int) =
          (sumTok tok rest : Int) := by
        simp [sumTok]
      have hvalid : validB maxM maxT tok (m :: rest) = false := by
        simp only [validB, Bool.and_eq_false_iff, decide_eq_false_iff_not,
          not_le]
        right
        exact ht
      have hrest : rest.length ≤ maxM := by
        simp only [List.length_cons] at hlen
        omega
      rw [pruneTokens, if_pos ht, hsub, lvs, hvalid]
      simp only [Bool.false_eq_true, if_false]
      exact ih hrest
    · have hvalid : validB maxM maxT tok (m :: rest) = true := by
        simp only [validB, Bool.and_eq_true, decide_eq_true_eq]
        exact ⟨hlen, by omega⟩
      rw [pruneTokens, if_neg ht, lvs, hvalid]
      simp

theorem prune_eq_lvs (maxM : Nat) (maxT : Int) (tok : String → Nat) :
    ∀ d : List Msg,
      pruneTokens maxT tok (pruneCount maxM tok d (sumTok tok d)).1
          (pruneCount maxM tok d (sumTok tok d)).2 =
        (lvs maxM maxT tok d, (sumTok tok (lvs maxM maxT tok d) : Int)) := by
  intro d
  induction d with
  | nil => simp [pruneCount, pruneTokens, lvs, sumTok]
  | cons m rest ih =>
    by_cases hlen : maxM < (m :: rest).length
    · have hsub : (sumTok tok (m :: rest) : Int) - (tok m.content : Int) =
          (sumTok tok rest : Int) := by
        simp [sumTok]
      have hvalid : validB maxM maxT tok (m :: rest) = false := by
        simp only [validB, Bool.and_eq_false_iff, decide_eq_false_iff_not,
          not_le]
        left
        exact hlen
      rw [pruneCount, if_pos hlen, hsub, lvs, hvalid]
      simp only [Bool.false_eq_true, if_false]
      exact ih
    · have hle : (m :: rest).length ≤ maxM := by omega
      rw [pruneCount, if_neg hlen]
      exact pruneTokens_eq_lvs maxM maxT tok (m :: rest) hle

theorem lvs_suffix (maxM : Nat) (maxT : Int) (tok : String → Nat) :
    ∀ l : List Msg, lvs maxM maxT tok l <:+ l := by
  intro l
  induction l with
  | nil => simp [lvs]
  | cons m rest ih =>
    by_cases h : validB maxM maxT tok (m :: rest) = true
    · simp [lvs, h]
    · rw [lvs, if_neg (by simpa using h)]
      exact ih.trans (List.suffix_cons m rest)

theorem lvs_valid (maxM : Nat) (maxT : Int) (tok : String → Nat) (hT : 0 ≤ maxT) :
    ∀ l : List Msg, validB maxM maxT tok (lvs maxM maxT tok l) = true := by
  intro l
  induction l with
  | nil => simp [lvs, validB, sumTok, hT]
  | cons m rest ih =>
    by_cases h : validB maxM maxT tok (m :: rest) = true
    · rw [lvs, if_pos (by simpa using h)]
      exact h
    · rw [lvs, if_neg (by simpa using h)]
      exact ih

theorem lvs_longest (maxM : Nat) (maxT : Int) (tok : String → Nat) :
    ∀ l s : List Msg, s <:+ l → validB maxM maxT tok s = true →
      s <:+ lvs maxM maxT tok l := by
  intro l
  induction l with
  | nil =>
    intro s hs _
    simpa [lvs] using hs
  | cons m rest ih =>
    intro s hs hv
    by_cases h : validB maxM maxT tok (m :: rest) = true
    · simpa [lvs, h] using hs
    · rw [lvs, if_neg (by simpa using h)]
      rcases List.suffix_cons_iff.mp hs with heq | htail
      · rw [heq] at hv
        exact absurd hv (by simp [h])
      · exact ih s htail hv

theorem validB_append_false (maxM : Nat) (maxT : Int) (tok : String → Nat)
    (l : List Msg) (m : Msg) (h : validB maxM maxT tok l = false) :
    validB maxM maxT tok (l ++ [m]) = false := by
  simp only [validB, Bool.and_eq_false_iff, decide_eq_false_iff_not, not_le] at h ⊢
  rcases h with hl | ht
  · left
    simp only [List.length_append, List.length_cons, List.length_nil]
    omega
  · right
    rw [sumTok_append]
    simp only [sumTok]
    push_cast
    omega

theorem lvs_append (maxM : Nat) (maxT : Int) (tok : String → Nat) :
    ∀ (l : List Msg) (m : Msg),
      lvs maxM maxT tok (lvs maxM maxT tok l ++ [m]) =
        lvs maxM maxT tok (l ++ [m]) := by
  intro l
  induction l with
  | nil => intro m; simp [lvs]
  | cons a rest ih =>
    intro m
    by_cases h : validB maxM maxT tok (a :: rest) = true
    · simp [lvs, h]
    · have h2 : validB maxM maxT tok ((a :: rest) ++ [m]) = false :=
        validB_append_false maxM maxT tok (a :: rest) m (by simpa using h)
      calc lvs maxM maxT tok (lvs maxM maxT tok (a :: rest) ++ [m])
          = lvs maxM maxT tok (lvs maxM maxT tok rest ++ [m]) := by
            rw [lvs, if_neg (by simpa using h)]
        _ = lvs maxM maxT tok (rest ++ [m]) := ih m
        _ = lvs maxM maxT tok ((a :: rest) ++ [m]) := by
            rw [List.cons_append, lvs, if_neg (by simpa using h2)]

theorem add_messageP_user (tok : String → Nat) (maxM : Nat) (maxT : Int)
    (s : MemoryStore) (uid : Nat) (msg : Msg)
    (h : dget s.tokenCnt uid 0 = (sumTok tok (dget s.cache uid []) : Int)) :
    (dget (add_messageP tok maxM maxT s uid msg).cache uid [],
     dget (add_messageP tok maxM maxT s uid msg).tokenCnt uid 0) =
      (lvs maxM maxT tok (dget s.cache uid [] ++ [msg]),
       (sumTok tok (lvs maxM maxT tok (dget s.cache uid [] ++ [msg])) : Int)) := by
  have hsum : dget s.tokenCnt uid 0 + (tok msg.content : Int) =
      (sumTok tok (dget s.cache uid [] ++ [msg]) : Int) := by
    rw [h, sumTok_append]
    simp [sumTok]
  simp only [add_messageP, dget_dset_self, hsum]
  rw [Prod.mk.injEq]
  have hp := prune_eq_lvs maxM maxT tok (dget s.cache uid [] ++ [msg])
  rw [Prod.ext_iff] at hp
  exact ⟨hp.1, hp.2⟩

theorem add_messageP_other (tok : String → Nat) (maxM : Nat) (maxT : Int)
    (s : MemoryStore) (uid u : Nat) (msg : Msg) (hu : u ≠ uid) :
    dget (add_messageP tok maxM maxT s uid msg).cache u [] = dget s.cache u []
    ∧ dget (add_messageP tok maxM maxT s uid msg).tokenCnt u 0 =
        dget s.tokenCnt u 0 := by
  simp only [add_messageP]
  rw [dget_dset_ne _ _ _ _ _ hu, dget_dset_ne _ _ _ _ _ hu,
    dget_dset_ne _ _ _ _ _ hu, dget_dset_ne _ _ _ _ _ hu]
  exact ⟨rfl, rfl⟩

/-- The reachability invariant of the store: the cached token counter is
the actual token total of the stored sequence, and both limits hold. -/
theorem memStore_inv (tok : String → Nat) (s : MemoryStore)
    (h : MemReach tok s) : ∀ uid : Nat,
    dget s.tokenCnt uid 0 = (sumTok tok (dget s.cache uid []) : Int) ∧
    (dget s.cache uid []).length ≤ MEMORY_MAX_PER_USER ∧
    (sumTok tok (dget s.cache uid []) : Int) ≤ MEMORY_MAX_TOKENS := by
  induction h with
  | init =>
    intro uid
    simp [emptyStore, dget, sumTok, MEMORY_MAX_PER_USER, MEMORY_MAX_TOKENS]
  | add s uid msg hr ih =>
    intro u
    by_cases hu : u = uid
    · subst hu
      have hp := add_messageP_user tok MEMORY_MAX_PER_USER MEMORY_MAX_TOKENS
        s u msg (ih u).1
      rw [Prod.mk.injEq] at hp
      have hv := lvs_valid MEMORY_MAX_PER_USER MEMORY_MAX_TOKENS tok
        (by norm_num [MEMORY_MAX_TOKENS]) (dget s.cache u [] ++ [msg])
      simp only [validB, Bool.and_eq_true, decide_eq_true_eq] at hv
      refine ⟨?_, ?_, ?_⟩
      · rw [add_message] at *
        rw [hp.1, hp.2]
      · rw [add_message, hp.1]
        exact hv.1
      · rw [add_message, hp.1]
        exact hv.2
    · have ho := add_messageP_other tok MEMORY_MAX_PER_USER MEMORY_MAX_TOKENS
        s uid u msg hu
      rw [add_message, ho.1, ho.2]
      exact ih u
  | clear s uid hr ih =>
    intro u
    by_cases hu : u = uid
    · subst hu
      simp [clear_user, dget_dpop_self, sumTok,
        MEMORY_MAX_PER_USER, MEMORY_MAX_TOKENS]
    · simp only [clear_user]
      rw [dget_dpop_ne _ _ _ _ hu, dget_dpop_ne _ _ _ _ hu]
      exact ih u

theorem fold_add_messageP (tok : String → Nat) (maxM : Nat) (maxT : Int)
    (uid : Nat) (msgs : List Msg) :
    (dget (msgs.foldl (fun s m => add_messageP tok maxM maxT s uid m)
        emptyStore).cache uid [],
     dget (msgs.foldl (fun s m => add_messageP tok maxM maxT s uid m)
        emptyStore).tokenCnt uid 0) =
      (lvs maxM maxT tok msgs, (sumTok tok (lvs maxM maxT tok msgs) : Int)) := by
  induction msgs using List.reverseRecOn with
  | nil => simp [emptyStore, dget, lvs, sumTok]
  | append_singleton l m ih =>
    rw [List.foldl_append, List.foldl_cons, List.foldl_nil]
    rw [Prod.mk.injEq] at ih
    have hstep := add_messageP_user tok maxM maxT
      (l.foldl (fun s m => add_messageP tok maxM maxT s uid m) emptyStore)
      uid m (by rw [ih.1, ih.2])
    rw [Prod.mk.injEq] at hstep
    rw [Prod.mk.injEq]
    rw [hstep.1, hstep.2, ih.1, lvs_append]
    exact ⟨rfl, rfl⟩

theorem parseKey_encodeKey (k : Nat) : parseKey (encodeKey k) = some k := by
  by_cases h : k = 0
  · subst h
    simp [encodeKey, parseKey, Nat.ofDigits]
  · rw [encodeKey, if_neg h]
    have hne : (Nat.digits 10 k).reverse ≠ [] := by
      simpa using Nat.digits_ne_nil_iff_ne_zero.mpr h
    have hdig : (Nat.digits 10 k).reverse.all (fun d => decide (d < 10)) = true := by
      rw [List.all_eq_true]
      intro d hd
      simpa using Nat.digits_lt_base (by norm_num) (List.mem_reverse.mp hd)
    rw [parseKey, if_neg hne, if_pos hdig, List.reverse_reverse,
      Nat.ofDigits_digits]

theorem dset_append_absent {α : Type} (k : Nat) (v : α) :
    ∀ m : List (Nat × α), (∀ q ∈ m, q.1 ≠ k) → dset m k v = m ++ [(k, v)] := by
  intro m
  induction m with
  | nil => intro _; simp [dset]
  | cons q rest ih =>
    intro h
    rw [dset, if_neg (by simpa using h q (by simp))]
    rw [ih (fun q' hq' => h q' (by simp [hq']))]
    simp

theorem foldl_dset_eq_append {α : Type} :
    ∀ (pairs acc : List (Nat × α)),
      ((acc ++ pairs).map Prod.fst).Nodup →
      pairs.foldl (fun a p => dset a p.1 p.2) acc = acc ++ pairs := by
  intro pairs
  induction pairs with
  | nil => intro acc _; simp
  | cons p rest ih =>
    intro acc h
    have hmem : ∀ q ∈ acc, q.1 ≠ p.1 := by
      intro q hq
      rw [List.map_append, List.nodup_append] at h
      have hdisj := h.2.2
      intro hcontra
      exact hdisj (List.mem_map_of_mem Prod.fst hq) (by simp [hcontra])
    rw [List.foldl_cons, dset_append_absent p.1 p.2 acc hmem]
    rw [ih (acc ++ [p]) (by simpa [List.append_assoc] using h)]
    simp

theorem loadStore_saveStore (tok : String → Nat) (s : MemoryStore)
    (hnd : (s.cache.map Prod.fst).Nodup) :
    (loadStore tok (FileContent.parsed (saveStore s))).cache = s.cache := by
  have hall : (saveStore s).all (fun p => (parseKey p.1).isSome) = true := by
    rw [List.all_eq_true]
    intro p hp
    rw [saveStore] at hp
    rcases List.mem_map.mp hp with ⟨q, _, hq⟩
    rw [← hq]
    simp [parseKey_encodeKey]
  simp only [loadStore]
  rw [if_pos hall]
  simp only [saveStore, List.foldl_map, parseKey_encodeKey, Option.getD_some]
  simpa using foldl_dset_eq_append s.cache [] (by simpa using hnd)

theorem dset_keys {α : Type} (k : Nat) (v : α) :
    ∀ m : List (Nat × α),
      (dset m k v).map Prod.fst =
        if (m.map Prod.fst).contains k then m.map Prod.fst
        else m.map Prod.fst ++ [k] := by
  intro m
  induction m with
  | nil => simp [dset]
  | cons p rest ih =>
    by_cases h : p.1 = k
    · rw [dset, if_pos (by simpa using h)]
      subst h
      simp [List.contains_cons]
    · rw [dset, if_neg (by simpa using h)]
      simp only [List.map_cons, List.contains_cons, ih]
      have hkp : k ≠ p.1 := fun hh => h hh.symm
      by_cases hc : k ∈ rest.map Prod.fst
      · simp [hc]
      · simp [hc, hkp]

theorem dset_keys_nodup {α : Type} (m : List (Nat × α)) (k : Nat) (v : α)
    (h : (m.map Prod.fst).Nodup) : ((dset m k v).map Prod.fst).Nodup := by
  rw [dset_keys]
  by_cases hc : (m.map Prod.fst).contains k = true
  · rw [if_pos hc]
    exact h
  · rw [if_neg hc]
    have : (k :: m.map Prod.fst).Nodup := by
      refine List.Nodup.cons ?_ h
      simpa using hc
    exact ((List.perm_append_singleton k (m.map Prod.fst)).nodup_iff).mpr this

theorem add_messageP_keys_nodup (tok : String → Nat) (maxM : Nat) (maxT : Int)
    (s : MemoryStore) (uid : Nat) (msg : Msg)
    (h : (s.cache.map Prod.fst).Nodup) :
    ((add_messageP tok maxM maxT s uid msg).cache.map Prod.fst).Nodup := by
  simp only [add_messageP]
  exact dset_keys_nodup _ _ _ (dset_keys_nodup _ _ _ h)

theorem addRequest_fields (st : QueueState) (now : ℚ) (uid : Nat)
    (owner : Bool) (txt : String) :
    (addRequest st now uid owner txt).2.processing = st.processing ∧
    (addRequest st now uid owner txt).2.current = st.current := by
  rw [addRequest]
  split
  · exact ⟨rfl, rfl⟩
  · split
    · exact ⟨rfl, rfl⟩
    · exact ⟨rfl, rfl⟩

/-- Reachability invariant: `_processing_users` holds exactly the user of
the request the worker currently holds (marked right after `get`, removed
in the `finally`). -/
theorem processing_eq_current (st : QueueState) (h : QReach st) :
    st.processing = (match st.current with
      | some r => [r.user_id]
      | none => []) := by
  induction h with
  | init => rfl
  | step st st2 hr hstep ih =>
    cases hstep with
    | add now uid owner txt =>
      have hf := addRequest_fields st now uid owner txt
      rw [hf.1, hf.2]
      exact ih
    | begin r rest hcur hpop =>
      rw [hcur] at ih
      simp only [beginState, ih, sadd, List.contains_nil]
      rfl
    | finish r ok hcur =>
      rw [hcur] at ih
      simp only [finishState, ih, sdiscard]
      simp
    | stop => rfl

theorem qltb_asymm (a b : QueuedRequest) (h : qltb a b = true) :
    qltb b a = false := by
  cases hao : a.is_owner <;> cases hbo : b.is_owner <;>
    simp [qltb, hao, hbo] at h ⊢ <;> linarith

theorem qltb_total_ne (a b : QueuedRequest)
    (h : a.timestamp ≠ b.timestamp) : qltb a b = true ∨ qltb b a = true := by
  cases hao : a.is_owner <;> cases hbo : b.is_owner <;>
    simp [qltb, hao, hbo] <;> exact h

theorem qltb_lt_of_lt_of_nlt (x a m : QueuedRequest)
    (h1 : qltb x a = true) (h2 : qltb m a = false) : qltb x m = true := by
  cases hx : x.is_owner <;> cases ha : a.is_owner <;> cases hm : m.is_owner <;>
    simp [qltb, hx, ha, hm] at h1 h2 ⊢ <;> linarith

theorem qltb_same_owner (a b : QueuedRequest) (ho : a.is_owner = b.is_owner)
    (ht : a.timestamp < b.timestamp) : qltb a b = true := by
  simp [qltb, ho, ht]

theorem qltb_owner_first (a b : QueuedRequest) (ha : a.is_owner = true)
    (hb : b.is_owner = false) : qltb a b = true := by
  simp [qltb, ha, hb]

theorem popMin_cons_none (a : QueuedRequest) (rest : List QueuedRequest)
    (h : popMin rest = none) : popMin (a :: rest) = some (a, rest) := by
  rw [popMin, h]

theorem popMin_cons_some (a : QueuedRequest) (rest : List QueuedRequest)
    (pm : QueuedRequest) (pr : List QueuedRequest)
    (h : popMin rest = some (pm, pr)) :
    popMin (a :: rest) =
      if qltb pm a then some (pm, a :: pr) else some (a, rest) := by
  rw [popMin, h]

theorem popMin_none (l : List QueuedRequest) (h : popMin l = none) :
    l = [] := by
  cases l with
  | nil => rfl
  | cons a rest =>
    exfalso
    cases hp : popMin rest with
    | none =>
      rw [popMin_cons_none a rest hp] at h
      exact Option.noConfusion h
    | some p =>
      obtain ⟨pm, pr⟩ := p
      rw [popMin_cons_some a rest pm pr hp] at h
      by_cases hq : qltb pm a = true
      · rw [if_pos hq] at h
        exact Option.noConfusion h
      · rw [if_neg hq] at h
        exact Option.noConfusion h

theorem popMin_length :
    ∀ (l : List QueuedRequest) (m : QueuedRequest) (r : List QueuedRequest),
      popMin l = some (m, r) → r.length + 1 = l.length := by
  intro l
  induction l with
  | nil => intro m r h; simp [popMin] at h
  | cons a rest ih =>
    intro m r h
    cases hp : popMin rest with
    | none =>
      rw [popMin_cons_none a rest hp] at h
      have h2 := Option.some.inj h
      rw [Prod.mk.injEq] at h2
      rw [← h2.2]
      simp
    | some p =>
      obtain ⟨pm, pr⟩ := p
      rw [popMin_cons_some a rest pm pr hp] at h
      by_cases hq : qltb pm a = true
      · rw [if_pos hq] at h
        have h2 := Option.some.inj h
        rw [Prod.mk.injEq] at h2
        have hlen := ih pm pr hp
        rw [← h2.2]
        simp only [List.length_cons]
        omega
      · rw [if_neg hq] at h
        have h2 := Option.some.inj h
        rw [Prod.mk.injEq] at h2
        rw [← h2.2]
        simp

theorem popMin_perm :
    ∀ (l : List QueuedRequest) (m : QueuedRequest) (r : List QueuedRequest),
      popMin l = some (m, r) → l.Perm (m :: r) := by
  intro l
  induction l with
  | nil => intro m r h; simp [popMin] at h
  | cons a rest ih =>
    intro m r h
    cases hp : popMin rest with
    | none =>
      rw [popMin_cons_none a rest hp] at h
      have h2 := Option.some.inj h
      rw [Prod.mk.injEq] at h2
      rw [← h2.1, ← h2.2]
    | some p =>
      obtain ⟨pm, pr⟩ := p
      rw [popMin_cons_some a rest pm pr hp] at h
      by_cases hq : qltb pm a = true
      · rw [if_pos hq] at h
        have h2 := Option.some.inj h
        rw [Prod.mk.injEq] at h2
        rw [← h2.1, ← h2.2]
        exact ((ih pm pr hp).cons a).trans (List.Perm.swap pm a pr)
      · rw [if_neg hq] at h
        have h2 := Option.some.inj h
        rw [Prod.mk.injEq] at h2
        rw [← h2.1, ← h2.2]

theorem popMin_sublist :
    ∀ (l : List QueuedRequest) (m : QueuedRequest) (r : List QueuedRequest),
      popMin l = some (m, r) → r.Sublist l := by
  intro l
  induction l with
  | nil => intro m r h; simp [popMin] at h
  | cons a rest ih =>
    intro m r h
    cases hp : popMin rest with
    | none =>
      rw [popMin_cons_none a rest hp] at h
      have h2 := Option.some.inj h
      rw [Prod.mk.injEq] at h2
      rw [← h2.2]
      exact List.sublist_cons_self a rest
    | some p =>
      obtain ⟨pm, pr⟩ := p
      rw [popMin_cons_some a rest pm pr hp] at h
      by_cases hq : qltb pm a = true
      · rw [if_pos hq] at h
        have h2 := Option.some.inj h
        rw [Prod.mk.injEq] at h2
        rw [← h2.2]
        exact List.Sublist.cons₂ a (ih pm pr hp)
      · rw [if_neg hq] at h
        have h2 := Option.some.inj h
        rw [Prod.mk.injEq] at h2
        rw [← h2.2]
        exact List.sublist_cons_self a rest

theorem popMin_min :
    ∀ (l : List QueuedRequest) (m : QueuedRequest) (r : List QueuedRequest),
      popMin l = some (m, r) → ∀ x ∈ r, qltb x m = false := by
  intro l
  induction l with
  | nil => intro m r h; simp [popMin] at h
  | cons a rest ih =>
    intro m r h
    cases hp : popMin rest with
    | none =>
      rw [popMin_cons_none a rest hp] at h
      have h2 := Option.some.inj h
      rw [Prod.mk.injEq] at h2
      intro x hx
      rw [← h2.2, popMin_none rest hp] at hx
      exact absurd hx (List.not_mem_nil x)
    | some p =>
      obtain ⟨pm, pr⟩ := p
      rw [popMin_cons_some a rest pm pr hp] at h
      by_cases hq : qltb pm a = true
      · rw [if_pos hq] at h
        have h2 := Option.some.inj h
        rw [Prod.mk.injEq] at h2
        intro x hx
        rw [← h2.2] at hx
        rw [← h2.1]
        rcases List.mem_cons.mp hx with hxa | hxr
        · rw [hxa]
          exact qltb_asymm pm a hq
        · exact ih pm pr hp x hxr
      · rw [if_neg hq] at h
        have h2 := Option.some.inj h
        rw [Prod.mk.injEq] at h2
        intro x hx
        rw [← h2.2] at hx
        rw [← h2.1]
        have hx2 := (popMin_perm rest pm pr hp).mem_iff.mp hx
        rcases List.mem_cons.mp hx2 with hxm | hxr
        · rw [hxm]
          simpa using hq
        · by_cases hxa : qltb x a = true
          · exact absurd
              (qltb_lt_of_lt_of_nlt x a pm hxa (by simpa using hq))
              (by simp [ih pm pr hp x hxr])
          · simpa using hxa

theorem drainAux_cons_some (n : Nat) (l : List QueuedRequest)
    (m : QueuedRequest) (r : List QueuedRequest) (h : popMin l = some (m, r)) :
    drainAux (n + 1) l = m :: drainAux n r := by
  rw [drainAux, h]

theorem drainAux_perm :
    ∀ (n : Nat) (l : List QueuedRequest), l.length ≤ n →
      (drainAux n l).Perm l := by
  intro n
  induction n with
  | zero =>
    intro l hl
    rw [List.length_eq_zero.mp (Nat.le_zero.mp hl)]
    exact List.Perm.refl _
  | succ n ih =>
    intro l hl
    cases hp : popMin l with
    | none =>
      rw [popMin_none l hp]
      rw [popMin_none l hp] at hp
      rw [drainAux, hp]
    | some p =>
      obtain ⟨m, r⟩ := p
      rw [drainAux_cons_some n l m r hp]
      have hlen := popMin_length l m r hp
      have hperm := popMin_perm l m r hp
      exact ((ih r (by omega)).cons m).trans hperm.symm

theorem drainAux_sorted :
    ∀ (n : Nat) (l : List QueuedRequest), l.length ≤ n →
      l.Pairwise (fun a b => a.timestamp ≠ b.timestamp) →
      (drainAux n l).Pairwise (fun a b => qltb a b = true) := by
  intro n
  induction n with
  | zero =>
    intro l _ _
    rw [drainAux]
    exact List.Pairwise.nil
  | succ n ih =>
    intro l hl hne
    cases hp : popMin l with
    | none =>
      rw [drainAux, hp]
      exact List.Pairwise.nil
    | some p =>
      obtain ⟨m, r⟩ := p
      rw [drainAux_cons_some n l m r hp]
      have hlen := popMin_length l m r hp
      have hperm := popMin_perm l m r hp
      have hne2 : (m :: r).Pairwise (fun a b => a.timestamp ≠ b.timestamp) :=
        hne.perm hperm (fun hxy => hxy.symm)
      rw [List.pairwise_cons] at hne2
      rw [List.pairwise_cons]
      constructor
      · intro y hy
        have hyr : y ∈ r := ((drainAux_perm n r (by omega)).mem_iff).mp hy
        have hymin := popMin_min l m r hp y hyr
        rcases qltb_total_ne m y (hne2.1 y hyr) with hmy | hym
        · exact hmy
        · rw [hymin] at hym
          exact absurd hym (by simp)
      · exact ih r (by omega) hne2.2

/-- Claim C1 as stated is false on the code: `_processing_users` is only
populated when the worker dequeues, so with no worker step in between a
second `add_request` by the owner (uid 7, exempt from the cooldown) is
accepted while the first request is still queued, leaving two queued
requests of the same user. -/
theorem claim_c1_counterexample :
    (addRequest initQState 0 7 true tA).1 = Decision.accepted ∧
    (addRequest (addRequest initQState 0 7 true tA).2 0 7 true tB).1 =
      Decision.accepted ∧
    ((addRequest (addRequest initQState 0 7 true tA).2 0 7 true
        tB).2.queue.filter (fun r => r.user_id == 7)).length = 2 :=
  ⟨by decide, by decide, by decide⟩

/-- Claim C1 (amended): at most one user is in `_processing_users` in any
reachable state (the single worker processes one request at a time), and
an `add_request` for the user whose request is currently being processed
is rejected with the already-in-flight decision; a request that is only
queued does not cause this rejection. -/
theorem claim_c1_processing_exclusive (st : QueueState) (h : QReach st) :
    st.processing.length ≤ 1 ∧
    (∀ (r : QueuedRequest) (now : ℚ) (owner : Bool) (txt : String),
      st.current = some r →
      (addRequest st now r.user_id owner txt).1 = Decision.rejectInFlight) := by
  have hinv := processing_eq_current st h
  constructor
  · rw [hinv]
    cases st.current <;> simp
  · intro r now owner txt hcur
    have hpr : st.processing = [r.user_id] := by rw [hinv, hcur]
    rw [addRequest, hpr, if_pos (by simp)]

/-- Witness for the amended C1 on a reachable state: the owner's request
is admitted, the worker begins processing it, and a second request by the
same user is rejected as already in flight. -/
theorem claim_c1_witness :
    QReach stC1w ∧
    (addRequest stC1w 1 7 false tB).1 = Decision.rejectInFlight := by
  have h1 : QReach (addRequest initQState 0 7 true tA).2 :=
    QReach.step initQState (addRequest initQState 0 7 true tA).2
      QReach.init (QStep.add initQState 0 7 true tA)
  have h2 : QReach stC1w :=
    QReach.step (addRequest initQState 0 7 true tA).2 stC1w h1
      (QStep.begin (addRequest initQState 0 7 true tA).2 reqA []
        (by decide) (by decide))
  exact ⟨h2, (claim_c1_processing_exclusive stC1w h2).2 reqA 1 false tB
    (by decide)⟩

/-- Claim C2: the worker dequeues pending requests in the total order
(priority class, then enqueue timestamp): when the pending requests carry
strictly increasing timestamps in enqueue order, the drain order is all
privileged (owner) requests in enqueue order, then all normal requests in
enqueue order. -/
theorem claim_c2_dequeue_order (l : List QueuedRequest)
    (H : l.Pairwise (fun a b => a.timestamp < b.timestamp)) :
    drainQ l = l.filter (fun r => r.is_owner) ++
      l.filter (fun r => !r.is_owner) := by
  have hne : l.Pairwise (fun a b => a.timestamp ≠ b.timestamp) :=
    H.imp (fun h => ne_of_lt h)
  have hperm : (drainQ l).Perm
      (l.filter (fun r => r.is_owner) ++ l.filter (fun r => !r.is_owner)) :=
    (drainAux_perm l.length l le_rfl).trans
      (List.filter_append_perm (fun r => r.is_owner) l).symm
  have hsort1 : (drainQ l).Pairwise (fun a b => qltb a b = true) :=
    drainAux_sorted l.length l le_rfl hne
  have hsort2 : (l.filter (fun r => r.is_owner) ++
      l.filter (fun r => !r.is_owner)).Pairwise
        (fun a b => qltb a b = true) := by
    rw [List.pairwise_append]
    refine ⟨?_, ?_, ?_⟩
    · refine List.Pairwise.imp_of_mem ?_ (H.filter (fun r => r.is_owner))
      intro a b ha hb hab
      exact qltb_same_owner a b
        (((List.mem_filter.mp ha).2).trans ((List.mem_filter.mp hb).2).symm)
        hab
    · refine List.Pairwise.imp_of_mem ?_ (H.filter (fun r => !r.is_owner))
      intro a b ha hb hab
      have ha2 := (List.mem_filter.mp ha).2
      have hb2 := (List.mem_filter.mp hb).2
      simp only [Bool.not_eq_true'] at ha2 hb2
      exact qltb_same_owner a b (ha2.trans hb2.symm) hab
    · intro a ha b hb
      have ha2 := (List.mem_filter.mp ha).2
      have hb2 := (List.mem_filter.mp hb).2
      simp only [Bool.not_eq_true'] at hb2
      exact qltb_owner_first a b ha2 hb2
  haveI : IsAntisymm QueuedRequest (fun a b => qltb a b = true) :=
    ⟨fun a b h1 h2 => absurd h2 (by simp [qltb_asymm a b h1])⟩
  exact List.eq_of_perm_of_sorted hperm hsort1 hsort2

/-- Witness for C2, the example of the spec: A(Normal, t=0),
B(Privileged, t=1), C(Normal, t=2) enqueued in that order are dequeued in
the order B, A, C. -/
theorem claim_c2_witness :
    ([reqN1, reqPrivB, reqN3].Pairwise
      (fun a b => a.timestamp < b.timestamp)) ∧
    drainQ [reqN1, reqPrivB, reqN3] = [reqPrivB, reqN1, reqN3] :=
  ⟨by decide,
   (claim_c2_dequeue_order [reqN1, reqPrivB, reqN3] (by decide)).trans
     (by decide)⟩

/-- Claim C3 as stated is false on the code in its remaining-time part:
for a non-privileged user last accepted at t0 = 0, re-requesting at
t = 1 is rejected with remaining cooldown 4.0 — the cooldown still to
elapse — not ≈5.0. -/
theorem claim_c3_counterexample :
    (addRequest stC3 1 7 false tA).1 = Decision.rejectCooldown 4 ∧
    (4 : ℚ) ≠ 5 := by
  constructor
  · rw [addRequest]
    rw [if_neg (by simp [stC3])]
    rw [if_pos (by norm_num [stC3, dget])]
    norm_num [stC3, dget]
  · norm_num

/-- Claim C3 (amended): for a non-privileged requester with recorded
last-accepted time t0 who is not being processed, an `add_request` at
time `now` with `now - t0 < 5` is rejected with the remaining cooldown
`5 - (now - t0)` (4.0 when `now = t0 + 1`, not ≈5.0) and the state is
unchanged; with `5 ≤ now - t0` it is accepted (so at `t0 + 5.1`);
a privileged requester is never rejected for cooldown; the last-accepted
time is set to the call time exactly on acceptance. -/
theorem claim_c3_cooldown (st : QueueState) (now t0 : ℚ) (uid : Nat)
    (txt : String) (hp : st.processing.contains uid = false)
    (ht0 : dget st.user_last_request uid 0 = t0) :
    (now - t0 < 5 →
      addRequest st now uid false txt =
        (Decision.rejectCooldown (5 - (now - t0)), st)) ∧
    (5 ≤ now - t0 →
      (addRequest st now uid false txt).1 = Decision.accepted ∧
      dget (addRequest st now uid false txt).2.user_last_request uid 0
        = now) ∧
    ((addRequest st now uid true txt).1 = Decision.accepted ∧
      dget (addRequest st now uid true txt).2.user_last_request uid 0
        = now) := by
  refine ⟨?_, ?_, ?_⟩
  · intro h
    rw [addRequest, ht0]
    rw [if_neg (by simp only [hp]; simp)]
    rw [if_pos (by simp [h])]
  · intro h
    rw [addRequest, ht0]
    rw [if_neg (by simp only [hp]; simp)]
    rw [if_neg (by simp [not_lt.mpr h])]
    exact ⟨rfl, dget_dset_self st.user_last_request uid now 0⟩
  · rw [addRequest, ht0]
    rw [if_neg (by simp only [hp]; simp)]
    rw [if_neg (by simp)]
    exact ⟨rfl, dget_dset_self st.user_last_request uid now 0⟩

/-- Witness for the amended C3: user 7 last accepted at 0; at time 1 the
rejection carries remaining cooldown 5 − (1 − 0); at time 6 the request
is accepted; the owner is accepted at time 1. -/
theorem claim_c3_witness :
    addRequest stC3 1 7 false tA =
      (Decision.rejectCooldown (5 - (1 - 0)), stC3) ∧
    (addRequest stC3 6 7 false tA).1 = Decision.accepted ∧
    (addRequest stC3 1 7 true tA).1 = Decision.accepted :=
  ⟨(claim_c3_cooldown stC3 1 0 7 tA rfl rfl).1 (by simp),
   ((claim_c3_cooldown stC3 6 0 7 tA rfl rfl).2.1 (by simp; decide)).1,
   ((claim_c3_cooldown stC3 1 0 7 tA rfl rfl).2.2).1⟩

/-- Claim C4: for every user, after every sequence of `add_message` and
`clear_user` operations starting from the fresh empty store, the stored
sequence has at most `MEMORY_MAX_PER_USER` (50) entries and the sum of
the tokenizer counts of its entries is at most `MEMORY_MAX_TOKENS`
(2000). -/
theorem claim_c4_memory_bounds (tok : String → Nat) (s : MemoryStore)
    (h : MemReach tok s) (uid : Nat) :
    (get_user_messages s uid).length ≤ MEMORY_MAX_PER_USER ∧
    (sumTok tok (get_user_messages s uid) : Int) ≤ MEMORY_MAX_TOKENS := by
  have hinv := memStore_inv tok s h uid
  rw [get_user_messages]
  exact ⟨hinv.2.1, hinv.2.2⟩

/-- Witness for C4 at a concrete reachable store: one message appended
for user 7 under the length tokenizer. -/
theorem claim_c4_witness :
    MemReach tokLen (add_message tokLen emptyStore 7 msgA) ∧
    ((get_user_messages (add_message tokLen emptyStore 7 msgA) 7).length ≤
        MEMORY_MAX_PER_USER ∧
     (sumTok tokLen (get_user_messages (add_message tokLen emptyStore 7 msgA)
        7) : Int) ≤ MEMORY_MAX_TOKENS) :=
  ⟨MemReach.add emptyStore 7 msgA MemReach.init,
   claim_c4_memory_bounds tokLen (add_message tokLen emptyStore 7 msgA)
     (MemReach.add emptyStore 7 msgA MemReach.init) 7⟩

/-- Claim C5: eviction removes only from the head and never reorders —
after any sequence of appends for a user (any limits with a non-negative
token budget, any tokenizer), the stored sequence is exactly the longest
suffix of the appended entries within both limits: it is a valid suffix
and every valid suffix is a suffix of it. -/
theorem claim_c5_eviction_suffix (tok : String → Nat) (maxM : Nat)
    (maxT : Int) (hT : 0 ≤ maxT) (uid : Nat) (msgs : List Msg) :
    get_user_messages
        (msgs.foldl (fun s m => add_messageP tok maxM maxT s uid m)
          emptyStore) uid = lvs maxM maxT tok msgs ∧
    lvs maxM maxT tok msgs <:+ msgs ∧
    validB maxM maxT tok (lvs maxM maxT tok msgs) = true ∧
    (∀ s2 : List Msg, s2 <:+ msgs → validB maxM maxT tok s2 = true →
      s2 <:+ lvs maxM maxT tok msgs) := by
  refine ⟨?_, lvs_suffix maxM maxT tok msgs, lvs_valid maxM maxT tok hT msgs,
    lvs_longest maxM maxT tok msgs⟩
  have hfold := fold_add_messageP tok maxM maxT uid msgs
  rw [Prod.mk.injEq] at hfold
  rw [get_user_messages]
  exact hfold.1

/-- Witness for C5, the token-eviction example of the spec: limits 3
messages and 10 tokens, three entries of cost 4 each; the first entry is
evicted and exactly the last two remain. -/
theorem claim_c5_witness :
    (0 : Int) ≤ 10 ∧
    get_user_messages
      ([msgA, msgB, msgC].foldl (fun s m => add_messageP tok4 3 10 s 7 m)
        emptyStore) 7 = [msgB, msgC] ∧
    [msgB, msgC] <:+ lvs 3 10 tok4 [msgA, msgB, msgC] :=
  ⟨by decide,
   ((claim_c5_eviction_suffix tok4 3 10 (by decide) 7
      [msgA, msgB, msgC]).1).trans (by decide),
   (claim_c5_eviction_suffix tok4 3 10 (by decide) 7
      [msgA, msgB, msgC]).2.2.2 [msgB, msgC] (by decide) (by decide)⟩

/-- Claim C6: persistence round-trip — after an `add_message` (which
serializes the whole per-user map), a fresh `MemoryStore` constructed
against the same stored content yields, for every user, the same ordered
sequence as the original store. -/
theorem claim_c6_persistence_roundtrip (tok : String → Nat)
    (s : MemoryStore) (hnd : (s.cache.map Prod.fst).Nodup) (uid u : Nat)
    (msg : Msg) :
    get_user_messages
        (loadStore tok (FileContent.parsed
          (saveStore (add_message tok s uid msg)))) u =
      get_user_messages (add_message tok s uid msg) u := by
  have hnd2 : ((add_message tok s uid msg).cache.map Prod.fst).Nodup := by
    rw [add_message]
    exact add_messageP_keys_nodup tok MEMORY_MAX_PER_USER MEMORY_MAX_TOKENS
      s uid msg hnd
  rw [get_user_messages, get_user_messages,
    loadStore_saveStore tok (add_message tok s uid msg) hnd2]

/-- Witness for C6: append one message to the empty store and read user 7
back from a fresh store built on the serialized snapshot. -/
theorem claim_c6_witness :
    ((emptyStore.cache.map Prod.fst).Nodup) ∧
    get_user_messages
        (loadStore tokLen (FileContent.parsed
          (saveStore (add_message tokLen emptyStore 7 msgA)))) 7 =
      get_user_messages (add_message tokLen emptyStore 7 msgA) 7 :=
  ⟨by decide, claim_c6_persistence_roundtrip tokLen emptyStore (by decide)
    7 7 msgA⟩

/-- Claim C7: for the request the worker holds, both exit paths of the
processing callback — normal return and a raised exception — leave the
user's in-flight marker cleared and the worker able to dequeue the next
queued request, so a callback exception never terminates the loop. -/
theorem claim_c7_inflight_cleared (st : QueueState) (r : QueuedRequest)
    (ok : Bool) (_h : st.current = some r) :
    r.user_id ∉ (finishState st r ok).processing ∧
    (finishState st r ok).current = none ∧
    ((finishState st r ok).queue ≠ [] →
      ∃ (q : QueuedRequest) (rest : List QueuedRequest),
        popMin (finishState st r ok).queue = some (q, rest) ∧
        QStep (finishState st r ok)
          (beginState (finishState st r ok) q rest)) := by
  refine ⟨?_, rfl, ?_⟩
  · intro hmem
    simp [finishState, sdiscard] at hmem
  · intro hne
    cases hq : popMin (finishState st r ok).queue with
    | none => exact absurd (popMin_none (finishState st r ok).queue hq) hne
    | some p =>
      obtain ⟨q, rest⟩ := p
      exact ⟨q, rest, rfl,
        QStep.begin (finishState st r ok) q rest rfl hq⟩

/-- Witness for C7 on the exception path (`ok = false`) of a worker
holding user 5's request with user 8's request still queued. -/
theorem claim_c7_witness :
    stC7.current = some reqC5 ∧
    (reqC5.user_id ∉ (finishState stC7 reqC5 false).processing ∧
     (finishState stC7 reqC5 false).current = none ∧
     ((finishState stC7 reqC5 false).queue ≠ [] →
       ∃ (q : QueuedRequest) (rest : List QueuedRequest),
         popMin (finishState stC7 reqC5 false).queue = some (q, rest) ∧
         QStep (finishState stC7 reqC5 false)
           (beginState (finishState stC7 reqC5 false) q rest))) :=
  ⟨rfl, claim_c7_inflight_cleared stC7 reqC5 false rfl⟩

/-- Claim C8: `stop` called with requests still queued and none being
processed discards the queued requests without invoking the processing
callback on any of them (the invocation count is unchanged), leaving a
pending count of 0 and an empty processing set. -/
theorem claim_c8_drain_discards (st : QueueState) (_hq : st.queue ≠ [])
    (_hc : st.current = none) :
    pendingCount (stopState st) = 0 ∧
    (stopState st).processing = [] ∧
    (stopState st).invoked = st.invoked :=
  ⟨rfl, rfl, rfl⟩

/-- Witness for C8: three normal requests queued, none processing. -/
theorem claim_c8_witness :
    stC8.queue ≠ [] ∧
    (pendingCount (stopState stC8) = 0 ∧
     (stopState stC8).processing = [] ∧
     (stopState stC8).invoked = stC8.invoked) :=
  ⟨by decide, claim_c8_drain_discards stC8 (by decide) rfl⟩

/-- Claim C9: a `MemoryStore` constructed against a missing store path,
an unparsable file, or a mapping with a key that `int()` rejects starts
empty for every user; the constructor is a total function of the file
content, so no startup failure reaches the caller. -/
theorem claim_c9_corrupt_store_empty (tok : String → Nat) (u : Nat) :
    get_user_messages (loadStore tok FileContent.missing) u = [] ∧
    get_user_messages (loadStore tok FileContent.corrupt) u = [] ∧
    (∀ data : List (List Nat × List Msg),
      data.all (fun p => (parseKey p.1).isSome) = false →
      get_user_messages (loadStore tok (FileContent.parsed data)) u = []) := by
  refine ⟨rfl, rfl, ?_⟩
  intro data h
  simp only [loadStore]
  rw [if_neg (by simp [h])]
  rfl

/-- Witness for C9 on a mapping whose only key holds the out-of-range
digit 10 (a non-digit character, which `int()` rejects). -/
theorem claim_c9_witness :
    (([([10], ([] : List Msg))].all (fun p => (parseKey p.1).isSome))
      = false) ∧
    get_user_messages
      (loadStore tokLen (FileContent.parsed [([10], [])])) 3 = [] :=
  ⟨by decide,
   (claim_c9_corrupt_store_empty tokLen 3).2.2 [([10], [])] (by decide)⟩

/-- Claim C10: an accepted `add_request` — from the owner as well —
records the call time as the requester's last-request timestamp, and a
rejected one (in-flight or cooldown) leaves the whole state (queue,
processing set and rate-limit map) unchanged. -/
theorem claim_c10_admission_effects (st : QueueState) (now : ℚ) (uid : Nat)
    (owner : Bool) (txt : String) :
    ((addRequest st now uid owner txt).1 = Decision.accepted →
      dget (addRequest st now uid owner txt).2.user_last_request uid 0
        = now) ∧
    ((addRequest st now uid owner txt).1 ≠ Decision.accepted →
      (addRequest st now uid owner txt).2 = st) := by
  rw [addRequest]
  split
  · exact ⟨fun h2 => absurd h2 (by simp), fun _ => rfl⟩
  · split
    · exact ⟨fun h2 => absurd h2 (by simp), fun _ => rfl⟩
    · constructor
      · intro _
        exact dget_dset_self st.user_last_request uid now 0
      · intro h2
        exact absurd rfl h2

/-- Witness for C10: an accepted owner request at time 0 records
timestamp 0 for user 7; a request rejected as in-flight leaves the state
unchanged. -/
theorem claim_c10_witness :
    dget (addRequest initQState 0 7 true tA).2.user_last_request 7 0 = 0 ∧
    (addRequest stC10 0 7 true tA).2 = stC10 :=
  ⟨(claim_c10_admission_effects initQState 0 7 true tA).1 (by decide),
   (claim_c10_admission_effects stC10 0 7 true tA).2 (by decide)⟩

end Mikaz
